import Mathlib

/-!
Verification of the EVTC combat-log classifier (`src/logfile.rs`) of the
wvw-insights repository.

The Rust code is shallowly embedded as follows.

* A byte buffer is a `List Nat` (each element is one byte of the file).
* Every raw slice index `data[i]` of the Rust code — an operation that
  panics when out of bounds — is modelled by `byteAt` / `sliceAt` /
  `readLE`, which return `Except Unit _`, with `.error ()` standing for a
  panic.  The explicit bounds checks of the source (`if pos + 4 >
  data.len() { return None }` …) are modelled as the same checks
  returning `.ok none`.  "The function never panics" is then the theorem
  that the embedded function never returns `.error ()`.
* Rust `String` values produced from agent-name blobs are modelled as the
  byte sequences that back them (`List Nat`); the lossy UTF-8 decoding
  step is the identity on the byte level, and `trim` is modelled as
  trimming of ASCII whitespace bytes.
* `HashMap<u64, usize>` with its unspecified iteration order is modelled
  as an association list built in first-insertion order, together with an
  arbitrary reordering function `order` applied before `max_by_key`;
  theorems that depend on the iteration order take the hypothesis that
  `order` only permutes the list, exactly what Rust's `HashMap`
  guarantees.
* `u16` / `u32` / `u64` values assembled by `from_le_bytes` are `Nat`s
  (they are bounded by construction, so no wrap-around arithmetic
  occurs).
* The DEFLATE decompressor used by the ZIP branch of `read_evtc_info` is
  external to the repository (the `flate2` crate); it is abstracted as a
  parameter `inflate : List Nat → Option (List Nat)`; file I/O is
  modelled by passing the file contents directly.
-/

/-! ## List toolkit -/

/-- Index into the right part of an append. -/
theorem getp_append_right (a b : List Nat) (i : Nat) :
    (a ++ b)[a.length + i]? = b[i]? := by
  induction a with
  | nil => simp
  | cons x t ih => simpa [Nat.succ_add] using ih

/-- Index into the left part of an append. -/
theorem getp_append_left (a b : List Nat) (i : Nat) (h : i < a.length) :
    (a ++ b)[i]? = a[i]? := by
  induction a generalizing i with
  | nil => simp at h
  | cons x t ih =>
    cases i with
    | zero => simp
    | succ j =>
      have hj : j < t.length := by simp at h; omega
      simpa using ih j hj

/-- Index into the middle component of a double append. -/
theorem getp_append_mid (a b c : List Nat) (i : Nat) (h : i < b.length) :
    (a ++ b ++ c)[a.length + i]? = b[i]? := by
  rw [List.append_assoc, getp_append_right, getp_append_left _ _ _ h]

/-- Dropping an append plus an extra offset. -/
theorem drop_append_plus (a b : List Nat) (i : Nat) :
    (a ++ b).drop (a.length + i) = b.drop i := by
  induction a with
  | nil => simp
  | cons x t ih =>
    rw [List.cons_append, List.length_cons, Nat.succ_add, List.drop_succ_cons, ih]

/-- Taking from the left component of an append. -/
theorem take_append_le (a b : List Nat) (n : Nat) (h : n ≤ a.length) :
    (a ++ b).take n = a.take n := by
  induction a generalizing n with
  | nil => simp at h; simp [h]
  | cons x t ih =>
    cases n with
    | zero => rfl
    | succ m =>
      simp only [List.cons_append, List.take_succ_cons]
      exact congrArg _ (ih m (by simpa using h))

/-! ## Byte-range reader -/

/-- Modelled `data[i]`: a single-byte read, panicking (`.error`) when out
of bounds. -/
def byteAt (data : List Nat) (i : Nat) : Except Unit Nat :=
  match data[i]? with
  | some b => .ok b
  | none => .error ()

/-- Modelled `&data[a..b]`: a subslice, panicking when the range is not
contained in the buffer. -/
def sliceAt (data : List Nat) (a b : Nat) : Except Unit (List Nat) :=
  if a ≤ b ∧ b ≤ data.length then .ok ((data.drop a).take (b - a))
  else .error ()

/-- Modelled `uN::from_le_bytes([data[pos], …, data[pos+w-1]])`: read `w`
consecutive bytes and assemble the little-endian value. -/
def readLE (data : List Nat) (pos : Nat) : Nat → Except Unit Nat
  | 0 => .ok 0
  | w + 1 => do
    let b ← byteAt data pos
    let r ← readLE data (pos + 1) w
    .ok (b + 256 * r)

/-- Little-endian value of a byte list (low byte first). -/
def leVal : List Nat → Nat
  | [] => 0
  | b :: t => b + 256 * leVal t

/-- Little-endian encoding of `n` into exactly `w` bytes. -/
def leBytes : Nat → Nat → List Nat
  | 0, _ => []
  | w + 1, n => n % 256 :: leBytes w (n / 256)

/-! ## Map types (`MapType`, `from_map_id`, `is_wvw`) -/

inductive MapType where
  | EternalBattlegrounds
  | GreenAlpineBorderlands
  | BlueAlpineBorderlands
  | RedDesertBorderlands
  | EdgeOfTheMists
  | ObsidianSanctum
  | PvE
  | Unknown
deriving DecidableEq

/-- Translation of `MapType::from_map_id` (the Rust integer `match` is
rendered as the equivalent chain of equality tests). -/
def MapType.from_map_id (map_id : Nat) : MapType :=
  if map_id = 38 then .EternalBattlegrounds
  else if map_id = 95 then .GreenAlpineBorderlands
  else if map_id = 96 then .BlueAlpineBorderlands
  else if map_id = 1099 then .RedDesertBorderlands
  else if map_id = 968 then .EdgeOfTheMists
  else if map_id = 899 then .ObsidianSanctum
  else if map_id > 0 then .PvE
  else .Unknown

/-- Translation of `MapType::is_wvw`. -/
def MapType.is_wvw : MapType → Bool
  | .PvE => false
  | .Unknown => false
  | _ => true

/-! ## Agents -/

/-- Translation of `PROF_OR_SPEC_NAMES` (profession and specialization
names filtered out of commander detection), as byte strings. -/
def strBytes (s : String) : List Nat := s.data.map Char.toNat

def PROF_OR_SPEC_NAMES : List (List Nat) :=
  [strBytes "Guardian", strBytes "Warrior", strBytes "Revenant",
   strBytes "Engineer", strBytes "Ranger", strBytes "Thief",
   strBytes "Elementalist", strBytes "Mesmer", strBytes "Necromancer",
   strBytes "Dragonhunter", strBytes "Firebrand", strBytes "Willbender",
   strBytes "Berserker", strBytes "Spellbreaker", strBytes "Bladesworn",
   strBytes "Herald", strBytes "Renegade", strBytes "Vindicator",
   strBytes "Scrapper", strBytes "Holosmith", strBytes "Mechanist",
   strBytes "Druid", strBytes "Soulbeast", strBytes "Untamed",
   strBytes "Daredevil", strBytes "Deadeye", strBytes "Specter",
   strBytes "Tempest", strBytes "Weaver", strBytes "Catalyst",
   strBytes "Chronomancer", strBytes "Mirage", strBytes "Virtuoso",
   strBytes "Reaper", strBytes "Scourge", strBytes "Harbinger"]

structure EVTCAgent where
  addr : Nat
  character : List Nat
  account : List Nat
deriving DecidableEq

/-- ASCII whitespace byte (the fragment of `char::is_whitespace` visible
at the byte level). -/
def wsByte (b : Nat) : Bool :=
  b = 9 || b = 10 || b = 11 || b = 12 || b = 13 || b = 32

/-- Modelled `str::trim`. -/
def trimBytes (l : List Nat) : List Nat :=
  ((l.dropWhile wsByte).reverse.dropWhile wsByte).reverse

/-- Modelled `slice::split` on a separator byte (keeps empty segments,
like Rust's `split`). -/
def splitOnByte (sep : Nat) : List Nat → List (List Nat)
  | [] => [[]]
  | b :: t =>
    if b = sep then [] :: splitOnByte sep t
    else
      match splitOnByte sep t with
      | h :: r => (b :: h) :: r
      | [] => [[b]]

/-- Translation of the name-blob decoding inside `EVTCAgent::from_bytes`:
split the 64-byte blob on null bytes, discard empty parts, trim each part
(lossy UTF-8 decoding is the identity at the byte level), discard parts
that became empty, then derive `(character, account)`. -/
def EVTCAgent.decode_name (addr : Nat) (name_bytes : List Nat) : EVTCAgent :=
  let parts := (((splitOnByte 0 name_bytes).filter (fun p => !p.isEmpty)).map
      trimBytes).filter (fun s => !s.isEmpty)
  match parts with
  | [] => ⟨addr, [], []⟩
  | first :: rest =>
    if first.contains 58 then
      let segs := splitOnByte 58 first
      if segs.length ≥ 2 then
        ⟨addr, trimBytes (segs.getD 0 []), trimBytes (segs.getD 1 [])⟩
      else
        ⟨addr, trimBytes first, []⟩
    else
      match rest with
      | [] => ⟨addr, trimBytes first, []⟩
      | p2 :: _ => ⟨addr, trimBytes first, trimBytes (p2.dropWhile (· = 58))⟩

/-- Translation of `EVTCAgent::from_bytes`. -/
def EVTCAgent.from_bytes (data : List Nat) (offset : Nat) :
    Except Unit (Option EVTCAgent) :=
  if offset + 96 > data.length then .ok none
  else do
    let addr ← readLE data offset 8
    let name_bytes ← sliceAt data (offset + 28) (offset + 92)
    .ok (some (EVTCAgent.decode_name addr name_bytes))

/-- Modelled `char::is_ascii_digit` at the byte level. -/
def asciiDigit (b : Nat) : Bool := 48 ≤ b && b ≤ 57

/-- Modelled `str::rfind(c)`: index of the last occurrence of a byte. -/
def rfindByte (c : Nat) : List Nat → Option Nat
  | [] => none
  | b :: t =>
    match rfindByte c t with
    | some i => some (i + 1)
    | none => if b = c then some 0 else none

/-- Translation of `EVTCAgent::is_player`. -/
def EVTCAgent.is_player (a : EVTCAgent) : Bool :=
  if a.account.isEmpty then false
  else
    match rfindByte 46 a.account with
    | some dot_pos =>
      let suffix := a.account.drop (dot_pos + 1)
      suffix.length == 4 && suffix.all asciiDigit
    | none => false

/-- Translation of `EVTCAgent::is_valid_commander_candidate`. -/
def EVTCAgent.is_valid_commander_candidate (a : EVTCAgent) : Bool :=
  a.is_player && !(PROF_OR_SPEC_NAMES.contains a.character)

/-- Translation of `format!("0x\x7b:x\x7d", addr)` as a byte string. -/
def hexRender (n : Nat) : List Nat :=
  48 :: 120 :: (Nat.toDigits 16 n).map Char.toNat

/-- Translation of `EVTCAgent::display_name`. -/
def EVTCAgent.display_name (a : EVTCAgent) : List Nat :=
  if !a.character.isEmpty then a.character else hexRender a.addr

/-! ## Structure walker: `parse_agents` -/

/-- The agent loop of `parse_agents`: `agent_count` iterations, each
trying `EVTCAgent::from_bytes` and advancing `pos` by 96; agents whose
record does not fit are skipped. -/
def agentLoop (data : List Nat) : Nat → Nat → Except Unit (List EVTCAgent × Nat)
  | pos, 0 => .ok ([], pos)
  | pos, n + 1 => do
    let a? ← EVTCAgent.from_bytes data pos
    let (rest, fin) ← agentLoop data (pos + 96) n
    match a? with
    | some a => .ok (a :: rest, fin)
    | none => .ok (rest, fin)

/-- Translation of `parse_agents`. -/
def parse_agents (data : List Nat) :
    Except Unit (Option (List EVTCAgent × Nat)) :=
  if data.length < 16 then .ok none
  else if 16 + 4 > data.length then .ok none
  else do
    let agent_count ← readLE data 16 4
    let r ← agentLoop data 20 agent_count
    .ok (some r)

/-! ## Classification scanner -/

/-- Intermediate scan state: current `map_id`, first point-of-view
address, commander-marker histogram in first-insertion order. -/
structure ScanAcc where
  map_id : Nat
  recorder : Option Nat
  counts : List (Nat × Nat)
deriving DecidableEq

/-- Modelled `*commander_counts.entry(src).or_insert(0) += 1` on the
association list. -/
def bump : List (Nat × Nat) → Nat → List (Nat × Nat)
  | [], a => [(a, 1)]
  | (k, v) :: t, a => if k = a then (k, v + 1) :: t else (k, v) :: bump t a

/-- One iteration of the combat-item scan loop of
`read_evtc_info_from_bytes` (the loop body, factored out): reads the
state-change tag at `pos + off` and updates the accumulator for the
map-id, point-of-view and commander-marker tags. -/
def scanStep (data : List Nat) (off pos : Nat) (acc : ScanAcc) :
    Except Unit ScanAcc := do
  let state_change ← byteAt data (pos + off)
  let acc1 ←
    if state_change = 25 ∧ acc.map_id = 0 then do
      let v ← readLE data (pos + 8) 2
      pure { acc with map_id := v }
    else pure acc
  let acc2 ←
    if state_change = 13 ∧ acc1.recorder = none then do
      let src ← readLE data (pos + 8) 8
      pure { acc1 with recorder := some src }
    else pure acc1
  if state_change = 37 then do
    let flag ← byteAt data (pos + 49)
    if flag = 1 then do
      let src ← readLE data (pos + 8) 8
      pure { acc2 with counts := bump acc2.counts src }
    else pure acc2
  else pure acc2

/-- The combat-item scan loop of `read_evtc_info_from_bytes`: at most
`fuel = max_items` records, stopping early when fewer than 64 bytes
remain. -/
def scanLoop (data : List Nat) (off : Nat) :
    Nat → Nat → ScanAcc → Except Unit ScanAcc
  | 0, _, acc => .ok acc
  | fuel + 1, pos, acc =>
    if pos + 64 > data.length then .ok acc
    else do
      let acc3 ← scanStep data off pos acc
      scanLoop data off fuel (pos + 64) acc3

/-- Everything `read_evtc_info_from_bytes` computes before the final
name lookups. -/
structure ParseOut where
  agents : List EVTCAgent
  map_id : Nat
  recorder_addr : Option Nat
  counts : List (Nat × Nat)
deriving DecidableEq

/-- The tail of the parsing phase, from the skill-count read onwards
(factored out of `parsePhase`): skill-table skip, then the bounded event
scan. -/
def parseTail (data : List Nat) (revision : Nat) (agents : List EVTCAgent)
    (pos0 : Nat) : Except Unit (Option ParseOut) :=
  if pos0 + 4 > data.length then .ok none
  else do
    let skill_count ← readLE data pos0 4
    let pos1 := pos0 + 4
    let skill_data_size := skill_count * 68
    if pos1 + skill_data_size > data.length then .ok none
    else do
      let pos2 := pos1 + skill_data_size
      let state_change_offset := if revision = 1 then 56 else 59
      let max_items := min ((data.length - pos2) / 64) 10000
      let acc ← scanLoop data state_change_offset max_items pos2 ⟨0, none, []⟩
      .ok (some ⟨agents, acc.map_id, acc.recorder, acc.counts⟩)

/-- Dispatch on the result of `parse_agents` (the continuation of the
match in `read_evtc_info_from_bytes`, factored out). -/
def agentsStage (data : List Nat) (revision : Nat) :
    Option (List EVTCAgent × Nat) → Except Unit (Option ParseOut)
  | none => .ok none
  | some (agents, pos0) => parseTail data revision agents pos0

/-- The parsing phase of `read_evtc_info_from_bytes`: header check,
revision byte, agent table, skill-table skip, event scan. -/
def parsePhase (data : List Nat) : Except Unit (Option ParseOut) :=
  if data.length < 16 then .ok none
  else do
    let revision ← byteAt data 12
    let pr ← parse_agents data
    agentsStage data revision pr

/-- Modelled `Iterator::max_by_key` accumulator (later elements win
ties, as documented for Rust's `max_by_key`). -/
def maxAux (a : Nat × Nat) : List (Nat × Nat) → Nat × Nat
  | [] => a
  | y :: t => maxAux (if a.2 ≤ y.2 then y else a) t

/-- Modelled `iter.max_by_key(|(_, count)| *count)`. -/
def maxByKey : List (Nat × Nat) → Option (Nat × Nat)
  | [] => none
  | x :: t => some (maxAux x t)

/-- The final classification record: `(map_id, map_type, recorder,
commander)`. -/
structure EvtcInfo where
  map_id : Nat
  map_type : MapType
  recorder : Option (List Nat)
  commander : Option (List Nat)
deriving DecidableEq

/-- The name-lookup tail of `read_evtc_info_from_bytes`: map-type table,
recorder lookup, commander pick.  `order` is the iteration order of the
`HashMap` (an arbitrary reordering; see the module comment). -/
def assembleInfo (order : List (Nat × Nat) → List (Nat × Nat))
    (p : ParseOut) : EvtcInfo :=
  let map_type := MapType.from_map_id p.map_id
  let recorder := p.recorder_addr.bind fun addr =>
    (p.agents.find? fun a => a.addr == addr).map EVTCAgent.display_name
  let commander := (maxByKey (order p.counts)).bind fun m =>
    (p.agents.find? fun a =>
        a.addr == m.1 && a.is_valid_commander_candidate).map
      EVTCAgent.display_name
  ⟨p.map_id, map_type, recorder, commander⟩

/-- Translation of `read_evtc_info_from_bytes`. -/
def read_evtc_info_from_bytes (order : List (Nat × Nat) → List (Nat × Nat))
    (data : List Nat) : Except Unit (Option EvtcInfo) :=
  do
    match ← parsePhase data with
    | none => pure none
    | some p => pure (some (assembleInfo order p))

/-- The default classification `(0, Unknown, None, None)` substituted by
`LogFile::new` when `read_evtc_info` returns `None`. -/
def defaultInfo : EvtcInfo := ⟨0, .Unknown, none, none⟩

/-- Translation of the classification part of `LogFile::new`:
`read_evtc_info(..).unwrap_or_else(|| (0, Unknown, None, None))`. -/
def classifyBytes (order : List (Nat × Nat) → List (Nat × Nat))
    (data : List Nat) : Except Unit EvtcInfo :=
  (read_evtc_info_from_bytes order data).map fun o => o.getD defaultInfo

/-- Translation of `read_evtc_info` (the container sniff), with the file
contents passed directly and the `flate2` DEFLATE decoder abstracted as
`inflate`. -/
def read_evtc_info (inflate : List Nat → Option (List Nat))
    (order : List (Nat × Nat) → List (Nat × Nat)) (contents : List Nat) :
    Except Unit (Option EvtcInfo) :=
  if contents.length < 4 then .ok none
  else do
    let b0 ← byteAt contents 0
    let b1 ← byteAt contents 1
    if b0 = 80 ∧ b1 = 75 then
      if contents.length < 30 then pure none
      else do
        let file_name_length ← readLE contents 26 2
        let extra_field_length ← readLE contents 28 2
        let pos := 30 + file_name_length + extra_field_length
        if pos ≥ contents.length then pure none
        else
          match inflate (contents.drop pos) with
          | some decompressed => read_evtc_info_from_bytes order decompressed
          | none => pure none
    else
      read_evtc_info_from_bytes order contents

/-! ## Logical event streams and their encodings

The claims about revision offsets and map-id latching quantify over
logical sequences of combat events.  `LEvent` is one logical event: its
state-change tag, the 8-byte little-endian source/value payload placed at
in-record offset 8, and the marker flag byte placed at in-record offset
49.  `encodeEvent off e` is the 64-byte record encoding `e` with the
state-change tag at in-record offset `off` (59 for header revision 0, 56
for revision 1) and zeroes elsewhere. -/

structure LEvent where
  tag : Nat
  val : Nat
  flag : Nat
deriving DecidableEq

def encodeEvent (off : Nat) (e : LEvent) : List Nat :=
  (List.range 64).map fun j =>
    if 8 ≤ j ∧ j < 16 then (e.val / 256 ^ (j - 8)) % 256
    else if j = 49 then e.flag
    else if j = off then e.tag
    else 0

def encAll (off : Nat) : List LEvent → List Nat
  | [] => []
  | e :: t => encodeEvent off e ++ encAll off t

/-- The in-record state-change tag offset selected by the header revision
byte (`if revision == 1 { 56 } else { 59 }`). -/
def tagOffOf (rev : Nat) : Nat := if rev = 1 then 56 else 59

/-- A well-formed raw log buffer: 12 opaque header bytes, the revision
byte, bytes 13–15, an agent count and `n` 96-byte agent records (as a raw
byte block `ab`), a skill count and `m` 68-byte skill records (block
`sb`), then the encoded event stream. -/
def encodeLog (p12 : List Nat) (rev b13 b14 b15 : Nat) (n : Nat)
    (ab : List Nat) (m : Nat) (sb : List Nat) (evs : List LEvent) :
    List Nat :=
  p12 ++ [rev, b13, b14, b15] ++ leBytes 4 n ++ ab ++ leBytes 4 m ++ sb ++
    encAll (tagOffOf rev) evs

/-- The agent decoded from one in-bounds 96-byte record. -/
def agentOfChunk (c : List Nat) : EVTCAgent :=
  EVTCAgent.decode_name (leVal (c.take 8)) ((c.drop 28).take 64)

/-- The agents decoded from a block of `n` consecutive 96-byte records. -/
def agentsOf : Nat → List Nat → List EVTCAgent
  | 0, _ => []
  | n + 1, ab => agentOfChunk (ab.take 96) :: agentsOf n (ab.drop 96)

/-- Reference semantics of one scan-loop iteration on a logical event. -/
def stepEvent (acc : ScanAcc) (e : LEvent) : ScanAcc :=
  let acc1 :=
    if e.tag = 25 ∧ acc.map_id = 0 then { acc with map_id := e.val % 65536 }
    else acc
  let acc2 :=
    if e.tag = 13 ∧ acc1.recorder = none then
      { acc1 with recorder := some (e.val % 2 ^ 64) }
    else acc1
  if e.tag = 37 ∧ e.flag = 1 then
    { acc2 with counts := bump acc2.counts (e.val % 2 ^ 64) }
  else acc2

/-- Reference semantics of the bounded scan loop over logical events. -/
def refScanFuel : Nat → List LEvent → ScanAcc → ScanAcc
  | 0, _, acc => acc
  | _ + 1, [], acc => acc
  | fuel + 1, e :: t, acc => refScanFuel fuel t (stepEvent acc e)

/-- Value (modulo u16) carried by the first map-id-tagged event, if any
(the quantity the spec claims is always reported). -/
def specFirstMapId (evs : List LEvent) : Option Nat :=
  (evs.filterMap fun e =>
    if e.tag = 25 then some (e.val % 65536) else none).head?

/-- First nonzero u16 value among map-id-tagged events, or 0 (the
quantity the code actually reports). -/
def firstNZMapId (evs : List LEvent) : Nat :=
  ((evs.filterMap fun e =>
    if e.tag = 25 ∧ e.val % 65536 ≠ 0 then some (e.val % 65536)
    else none).head?).getD 0

/-! ## Basic lemmas about the byte primitives -/

theorem byteAt_eq_of_get {data : List Nat} {i : Nat} {b : Nat}
    (h : data[i]? = some b) : byteAt data i = .ok b := by
  unfold byteAt; rw [h]

theorem byteAt_ok_of_lt (data : List Nat) (i : Nat) (h : i < data.length) :
    byteAt data i = .ok data[i] :=
  byteAt_eq_of_get (List.getElem?_eq_getElem h)

/-- A bounds-checked multi-byte read succeeds and returns the
little-endian value of the corresponding slice. -/
theorem readLE_eq (data : List Nat) (pos w : Nat)
    (h : pos + w ≤ data.length) :
    readLE data pos w = .ok (leVal ((data.drop pos).take w)) := by
  induction w generalizing pos with
  | zero => simp [readLE, leVal]
  | succ w ih =>
    have hpos : pos < data.length := by omega
    have hdrop : data.drop pos = data[pos] :: data.drop (pos + 1) :=
      List.drop_eq_getElem_cons hpos
    rw [readLE, byteAt_ok_of_lt data pos hpos]
    rw [ih (pos + 1) (by omega)]
    simp only [bind, Except.bind, hdrop, List.take_succ_cons, leVal]

theorem sliceAt_ok (data : List Nat) (a b : Nat) (hab : a ≤ b)
    (hb : b ≤ data.length) :
    sliceAt data a b = .ok ((data.drop a).take (b - a)) := by
  unfold sliceAt
  rw [if_pos ⟨hab, hb⟩]

/-- Propagation of a failed read through a bind (stated as a lemma so
that rewriting with it keeps kernel checking cheap). -/
theorem exc_bind_error {a b : Type} (e : Unit) (k : a → Except Unit b) :
    (Except.error e : Except Unit a) >>= k = Except.error e := rfl

/-- Reduction of a successful read through a bind (same purpose as
`exc_bind_error`). -/
theorem exc_bind_ok {a b : Type} (v : a) (k : a → Except Unit b) :
    (Except.ok v : Except Unit a) >>= k = k v := rfl

theorem agentsStage_none (data : List Nat) (revision : Nat) :
    agentsStage data revision none = .ok none := rfl

theorem agentsStage_some (data : List Nat) (revision : Nat)
    (agents : List EVTCAgent) (pos0 : Nat) :
    agentsStage data revision (some (agents, pos0)) =
      parseTail data revision agents pos0 := rfl

/-! ## No-panic lemmas: every modelled index is in bounds -/

theorem from_bytes_ok (data : List Nat) (offset : Nat) :
    ∃ r, EVTCAgent.from_bytes data offset = .ok r := by
  unfold EVTCAgent.from_bytes
  by_cases h : offset + 96 > data.length
  · rw [if_pos h]; exact ⟨none, rfl⟩
  · rw [if_neg h]
    rw [readLE_eq data offset 8 (by omega),
      sliceAt_ok data (offset + 28) (offset + 92) (by omega) (by omega)]
    exact ⟨_, rfl⟩

theorem agentLoop_ok (data : List Nat) (n pos : Nat) :
    ∃ r, agentLoop data pos n = .ok r := by
  induction n generalizing pos with
  | zero => exact ⟨_, rfl⟩
  | succ n ih =>
    obtain ⟨a?, ha⟩ := from_bytes_ok data pos
    obtain ⟨⟨rest, fin⟩, hrec⟩ := ih (pos + 96)
    rw [agentLoop, ha]
    simp only [bind, Except.bind, hrec]
    cases a? <;> exact ⟨_, rfl⟩

theorem parse_agents_ok (data : List Nat) :
    ∃ r, parse_agents data = .ok r := by
  unfold parse_agents
  by_cases h16 : data.length < 16
  · rw [if_pos h16]; exact ⟨none, rfl⟩
  rw [if_neg h16]
  by_cases h20 : 16 + 4 > data.length
  · rw [if_pos h20]; exact ⟨none, rfl⟩
  rw [if_neg h20]
  rw [readLE_eq data 16 4 (by omega)]
  obtain ⟨r, hr⟩ := agentLoop_ok data (leVal ((data.drop 16).take 4)) 20
  simp only [bind, Except.bind, hr]
  exact ⟨_, rfl⟩

theorem scanStep_ok (data : List Nat) (off pos : Nat) (hoff : off < 64)
    (hb : pos + 64 ≤ data.length) (acc : ScanAcc) :
    ∃ r, scanStep data off pos acc = .ok r := by
  unfold scanStep
  have h1 := byteAt_ok_of_lt data (pos + off) (by omega)
  have h2 := readLE_eq data (pos + 8) 2 (by omega)
  have h3 := readLE_eq data (pos + 8) 8 (by omega)
  have h4 := byteAt_ok_of_lt data (pos + 49) (by omega)
  simp only [h1, h2, h3, h4, bind, Except.bind, pure, Except.pure]
  repeat' split
  all_goals exact ⟨_, rfl⟩

theorem scanLoop_ok (data : List Nat) (off : Nat) (hoff : off < 64)
    (fuel : Nat) : ∀ pos acc, ∃ r, scanLoop data off fuel pos acc = .ok r := by
  induction fuel with
  | zero => exact fun pos acc => ⟨_, rfl⟩
  | succ fuel ih =>
    intro pos acc
    rw [scanLoop]
    by_cases hb : pos + 64 > data.length
    · rw [if_pos hb]; exact ⟨_, rfl⟩
    rw [if_neg hb]
    obtain ⟨r, hr⟩ := scanStep_ok data off pos hoff (by omega) acc
    simp only [bind, Except.bind, hr]
    exact ih (pos + 64) r

theorem parseTail_ok (data : List Nat) (revision : Nat)
    (agents : List EVTCAgent) (pos0 : Nat) :
    ∃ r, parseTail data revision agents pos0 = .ok r := by
  unfold parseTail
  by_cases h4 : pos0 + 4 > data.length
  · rw [if_pos h4]; exact ⟨none, rfl⟩
  rw [if_neg h4]
  rw [readLE_eq data pos0 4 (by omega)]
  simp only [bind, Except.bind]
  set skill_count := leVal ((data.drop pos0).take 4) with hskc
  by_cases hsk : pos0 + 4 + skill_count * 68 > data.length
  · rw [if_pos hsk]; exact ⟨none, rfl⟩
  rw [if_neg hsk]
  have hoff : (if revision = 1 then 56 else 59) < 64 := by
    by_cases h : revision = 1 <;> simp [h]
  obtain ⟨acc, hacc⟩ := scanLoop_ok data _ hoff
    (min ((data.length - (pos0 + 4 + skill_count * 68)) / 64) 10000)
    (pos0 + 4 + skill_count * 68) ⟨0, none, []⟩
  rw [hacc]
  exact ⟨_, rfl⟩

theorem parsePhase_ok (data : List Nat) :
    ∃ r, parsePhase data = .ok r := by
  unfold parsePhase
  by_cases h16 : data.length < 16
  · rw [if_pos h16]; exact ⟨none, rfl⟩
  rw [if_neg h16]
  rw [byteAt_ok_of_lt data 12 (by omega)]
  obtain ⟨pr, hpr⟩ := parse_agents_ok data
  simp only [bind, Except.bind, hpr]
  rcases pr with _ | ⟨agents, pos0⟩
  · exact ⟨none, rfl⟩
  exact parseTail_ok data data[12] agents pos0

/-- Spec-side rendering of "the substring after the last `.`". -/
def afterLastDot (account : List Nat) : List Nat :=
  (account.reverse.takeWhile fun b => b != 46).reverse

/-- Modelled from the spec: "account name non-empty AND its substring
after the last `.` has length exactly 4 and every character is an ASCII
digit" (with "contains a `.`" made explicit). -/
def isPlayerSpec (account : List Nat) : Prop :=
  account ≠ [] ∧ 46 ∈ account ∧ (afterLastDot account).length = 4 ∧
    ∀ b ∈ afterLastDot account, asciiDigit b = true

/-! ## Decidable equality for `Except` results (used by the concrete
witnesses) -/

instance {a b : Type} [DecidableEq a] [DecidableEq b] :
    DecidableEq (Except a b) := fun x y =>
  match x, y with
  | .ok u, .ok v =>
    if h : u = v then isTrue (by rw [h]) else isFalse (by simp [h])
  | .error u, .error v =>
    if h : u = v then isTrue (by rw [h]) else isFalse (by simp [h])
  | .ok _, .error _ => isFalse (by simp)
  | .error _, .ok _ => isFalse (by simp)

/-! ## Concrete witness data

A small well-formed log: two agents (a valid player "Alice" with address
5 and an agent whose character name is the profession name "Guardian"
with address 7), no skills, and an event stream announcing map 38, point
of view 5, and commander markers with a strict majority for address 7. -/

def wNameAlice : List Nat :=
  strBytes "Alice" ++ [0] ++ strBytes ":Alice.1234" ++ List.replicate 47 0

def wNameGuardian : List Nat :=
  strBytes "Guardian" ++ [0] ++ strBytes ":Bob.1234" ++ List.replicate 46 0

def wAgentRec (addr : Nat) (name : List Nat) : List Nat :=
  leBytes 8 addr ++ List.replicate 20 0 ++ name ++ List.replicate 4 0

def wAgents : List Nat := wAgentRec 5 wNameAlice ++ wAgentRec 7 wNameGuardian

def wEvents : List LEvent :=
  [⟨25, 38, 0⟩, ⟨13, 5, 0⟩, ⟨37, 7, 1⟩, ⟨37, 7, 1⟩, ⟨37, 5, 1⟩]

def wBuf : List Nat :=
  encodeLog (List.replicate 12 0) 0 0 0 0 2 wAgents 0 [] wEvents

def wBufRev1 : List Nat :=
  encodeLog (List.replicate 12 0) 1 0 0 0 2 wAgents 0 [] wEvents

/-- The parse-phase output of `wBuf` (checked by `decide` in the
witnesses). -/
def wParseOut : ParseOut :=
  ⟨[⟨5, strBytes "Alice", strBytes "Alice.1234"⟩,
    ⟨7, strBytes "Guardian", strBytes "Bob.1234"⟩],
   38, some 5, [(7, 2), (5, 1)]⟩

/-- A truncated buffer: the agent table announces 2 agents but only one
96-byte record is present. -/
def wTrunc : List Nat :=
  List.replicate 12 0 ++ [0, 0, 0, 0] ++ leBytes 4 2 ++
    wAgentRec 0 (List.replicate 64 0)

/-- Buffer with two map-id events, the first carrying value 0 and the
second carrying value 38. -/
def wBufMapZero : List Nat :=
  encodeLog (List.replicate 12 0) 0 0 0 0 0 [] 0 [] [⟨25, 0, 0⟩, ⟨25, 38, 0⟩]

/-! ## Claim C1 -/

/-- Helper: the byte-level classifier never reaches an unchecked
out-of-bounds read. -/
theorem read_evtc_info_from_bytes_ok
    (order : List (Nat × Nat) → List (Nat × Nat)) (data : List Nat) :
    ∃ r, read_evtc_info_from_bytes order data = .ok r := by
  unfold read_evtc_info_from_bytes
  obtain ⟨pr, hpr⟩ := parsePhase_ok data
  simp only [bind, Except.bind, hpr]
  rcases pr with _ | p
  · exact ⟨none, rfl⟩
  · exact ⟨some (assembleInfo order p), rfl⟩

/-- C1: for every byte buffer (in particular every prefix-truncation of
a valid log), `read_evtc_info_from_bytes` never performs an
out-of-bounds access or panics (in the embedding: it never returns
`.error`), and whenever it returns `None` the caller substitutes the
default classification `(map_type Unknown, recorder None, commander
None)`. -/
theorem claim_C1 :
    (∀ (order : List (Nat × Nat) → List (Nat × Nat)) (data : List Nat),
      ∃ r, read_evtc_info_from_bytes order data = .ok r) ∧
    (∀ (order : List (Nat × Nat) → List (Nat × Nat)) (data : List Nat),
      read_evtc_info_from_bytes order data = .ok none →
      classifyBytes order data = .ok defaultInfo) := by
  refine ⟨read_evtc_info_from_bytes_ok, fun order data h => ?_⟩
  unfold classifyBytes
  rw [h]
  rfl

/-- Witness for C1 at a concrete truncated input (the empty buffer). -/
theorem claim_C1_witness :
    read_evtc_info_from_bytes id [] = .ok none ∧
    classifyBytes id [] = .ok defaultInfo :=
  ⟨rfl, claim_C1.2 id [] rfl⟩

/-! ## Claim C2 -/

/-- An agent record is skipped exactly when it extends past the buffer. -/
theorem from_bytes_none_iff (data : List Nat) (offset : Nat) :
    EVTCAgent.from_bytes data offset = .ok none ↔
      data.length < offset + 96 := by
  unfold EVTCAgent.from_bytes
  by_cases h : offset + 96 > data.length
  · rw [if_pos h]
    simp [h]
  · rw [if_neg h]
    rw [readLE_eq data offset 8 (by omega),
      sliceAt_ok data (offset + 28) (offset + 92) (by omega) (by omega)]
    simp only [bind, Except.bind]
    constructor
    · intro heq
      cases heq
    · intro hlt
      omega

/-- The agent loop always advances `pos` by `96 * n`, and whenever any
record was skipped, the final position is past the end of the buffer. -/
theorem agentLoop_spec (data : List Nat) (n : Nat) :
    ∀ pos, ∃ agents, agentLoop data pos n = .ok (agents, pos + 96 * n) ∧
      agents.length ≤ n ∧
      (agents.length < n → data.length < pos + 96 * n) := by
  induction n with
  | zero =>
    intro pos
    refine ⟨[], by simp [agentLoop], by simp, fun h => ?_⟩
    simp at h
  | succ n ih =>
    intro pos
    obtain ⟨a?, ha⟩ := from_bytes_ok data pos
    obtain ⟨rest, hrec, hlen, himp⟩ := ih (pos + 96)
    have harith : pos + 96 + 96 * n = pos + 96 * (n + 1) := by ring
    rw [harith] at hrec
    rcases a? with _ | a
    · refine ⟨rest, ?_, by omega, fun _ => ?_⟩
      · rw [agentLoop, ha]
        simp only [bind, Except.bind, hrec]
      · have := (from_bytes_none_iff data pos).mp ha
        omega
    · refine ⟨a :: rest, ?_, by simp; omega, fun hlt => ?_⟩
      · rw [agentLoop, ha]
        simp only [bind, Except.bind, hrec]
      · have hr : rest.length < n := by simp at hlt; omega
        have := himp hr
        omega

/-- C2: a failed bounds-checked read at any stage aborts the whole parse
attempt: in particular when `parse_agents` skipped at least one agent
record (it parsed fewer agents than the announced count), the whole file
classifies as `None`, which the caller maps to the default
classification; no partial agent directory is observable. -/
theorem claim_C2 (order : List (Nat × Nat) → List (Nat × Nat))
    (data : List Nat) (n : Nat) (agents : List EVTCAgent) (pos : Nat)
    (hn : readLE data 16 4 = .ok n)
    (hp : parse_agents data = .ok (some (agents, pos)))
    (hlt : agents.length < n) :
    read_evtc_info_from_bytes order data = .ok none ∧
      classifyBytes order data = .ok defaultInfo := by
  have h16 : ¬ data.length < 16 := by
    intro h
    unfold parse_agents at hp
    rw [if_pos h] at hp
    cases hp
  have h20 : ¬ 16 + 4 > data.length := by
    intro h
    unfold parse_agents at hp
    rw [if_neg h16, if_pos h] at hp
    cases hp
  have hnval : n = leVal ((data.drop 16).take 4) := by
    rw [readLE_eq data 16 4 (by omega)] at hn
    cases hn
    rfl
  obtain ⟨agents2, hloop, hlen2, himp⟩ := agentLoop_spec data n 20
  have hp2 : parse_agents data = .ok (some (agents2, 20 + 96 * n)) := by
    unfold parse_agents
    rw [if_neg h16, if_neg h20, readLE_eq data 16 4 (by omega)]
    simp only [bind, Except.bind, ← hnval, hloop]
  rw [hp2] at hp
  have hag : agents2 = agents ∧ 20 + 96 * n = pos := by
    cases hp
    exact ⟨rfl, rfl⟩
  obtain ⟨rfl, hpos⟩ := hag
  have hover : data.length < pos := by
    have := himp hlt
    omega
  have hphase : parsePhase data = .ok none := by
    unfold parsePhase
    rw [if_neg h16, byteAt_ok_of_lt data 12 (by omega)]
    simp only [bind, Except.bind, hp2, hpos, agentsStage_some]
    unfold parseTail
    rw [if_pos (by omega)]
  constructor
  · unfold read_evtc_info_from_bytes
    simp only [bind, Except.bind, hphase]
    rfl
  · unfold classifyBytes read_evtc_info_from_bytes
    simp only [bind, Except.bind, hphase]
    rfl

set_option maxRecDepth 100000 in
/-- Witness for C2: a buffer announcing 2 agents whose second record is
missing classifies as default. -/
theorem claim_C2_witness :
    read_evtc_info_from_bytes id wTrunc = .ok none ∧
      classifyBytes id wTrunc = .ok defaultInfo :=
  claim_C2 id wTrunc 2 [⟨0, [], []⟩] 212 (by decide) (by decide) (by decide)

/-! ## Claims C3 and C10: the commander pick -/

theorem maxAux_mem (l : List (Nat × Nat)) :
    ∀ a : Nat × Nat, maxAux a l ∈ a :: l := by
  induction l with
  | nil => intro a; simp [maxAux]
  | cons y t ih =>
    intro a
    rw [maxAux]
    by_cases h : a.2 ≤ y.2
    · rw [if_pos h]
      have h1 := ih y
      simp only [List.mem_cons] at h1 ⊢
      tauto
    · rw [if_neg h]
      have h1 := ih a
      simp only [List.mem_cons] at h1 ⊢
      tauto

theorem maxAux_ge (l : List (Nat × Nat)) :
    ∀ a : Nat × Nat, ∀ x ∈ a :: l, x.2 ≤ (maxAux a l).2 := by
  induction l with
  | nil =>
    intro a x hx
    simp only [List.mem_cons, List.not_mem_nil, or_false] at hx
    subst hx
    simp [maxAux]
  | cons y t ih =>
    intro a x hx
    rw [maxAux]
    simp only [List.mem_cons] at hx
    by_cases h : a.2 ≤ y.2
    · rw [if_pos h]
      rcases hx with hx | hx | hx
      · have hy : y.2 ≤ (maxAux y t).2 := ih y y (List.mem_cons_self _ _)
        subst hx
        omega
      · exact ih y x (List.mem_cons.mpr (Or.inl hx))
      · exact ih y x (List.mem_cons.mpr (Or.inr hx))
    · rw [if_neg h]
      rcases hx with hx | hx | hx
      · exact ih a x (List.mem_cons.mpr (Or.inl hx))
      · have ha : a.2 ≤ (maxAux a t).2 := ih a a (List.mem_cons_self _ _)
        subst hx
        omega
      · exact ih a x (List.mem_cons.mpr (Or.inr hx))

theorem maxByKey_mem {l : List (Nat × Nat)} {m : Nat × Nat}
    (h : maxByKey l = some m) : m ∈ l := by
  cases l with
  | nil => cases h
  | cons x t =>
    rw [maxByKey] at h
    cases h
    exact maxAux_mem t x

theorem maxByKey_ge {l : List (Nat × Nat)} {m : Nat × Nat}
    (h : maxByKey l = some m) : ∀ x ∈ l, x.2 ≤ m.2 := by
  cases l with
  | nil => cases h
  | cons x t =>
    rw [maxByKey] at h
    cases h
    exact fun x hx => maxAux_ge t _ x hx

theorem maxByKey_isSome {l : List (Nat × Nat)} (h : l ≠ []) :
    ∃ m, maxByKey l = some m := by
  cases l with
  | nil => exact absurd rfl h
  | cons x t => exact ⟨_, rfl⟩

/-- Any element returned by `max_by_key` from a list with a strict
maximum carries the strict maximum's key. -/
theorem maxByKey_strict {l : List (Nat × Nat)} {a c : Nat}
    (hmem : (a, c) ∈ l) (hstrict : ∀ p ∈ l, p.1 ≠ a → p.2 < c)
    {m : Nat × Nat} (hm : maxByKey l = some m) : m.1 = a := by
  have hmm := maxByKey_mem hm
  have hge := maxByKey_ge hm (a, c) hmem
  by_contra hne
  have := hstrict m hmm hne
  simp at hge
  omega

/-- When the histogram has a strict maximum at `a`, the commander pick
reduces to the lookup of `a`, whatever iteration order the hash map
produced. -/
theorem commander_pick_strict (agents : List EVTCAgent)
    (counts : List (Nat × Nat))
    (order : List (Nat × Nat) → List (Nat × Nat)) (a c : Nat)
    (hperm : (order counts).Perm counts) (hmem : (a, c) ∈ counts)
    (hstrict : ∀ q ∈ counts, q.1 ≠ a → q.2 < c) :
    ((maxByKey (order counts)).bind fun m =>
      (agents.find? fun ag =>
        ag.addr == m.1 && ag.is_valid_commander_candidate).map
        EVTCAgent.display_name) =
    (agents.find? fun ag =>
      ag.addr == a && ag.is_valid_commander_candidate).map
      EVTCAgent.display_name := by
  have hne : order counts ≠ [] := by
    intro h
    rw [h] at hperm
    have := hperm.symm.eq_nil
    rw [this] at hmem
    cases hmem
  obtain ⟨m, hm⟩ := maxByKey_isSome hne
  have hkey : m.1 = a := by
    refine maxByKey_strict (hperm.mem_iff.mpr hmem) ?_ hm
    exact fun p hp => hstrict p (hperm.subset hp)
  rw [hm]
  show (agents.find? fun ag =>
      ag.addr == m.1 && ag.is_valid_commander_candidate).map
      EVTCAgent.display_name = _
  rw [hkey]

/-- C3: whenever the address with the strictly highest commander-marker
count maps to no agent satisfying `is_valid_commander_candidate`, the
returned commander is `None` — the implementation never falls back to a
lower-count address. -/
theorem claim_C3 (order : List (Nat × Nat) → List (Nat × Nat))
    (data : List Nat) (p : ParseOut) (a c : Nat)
    (hp : parsePhase data = .ok (some p))
    (hperm : (order p.counts).Perm p.counts)
    (hmem : (a, c) ∈ p.counts)
    (hstrict : ∀ q ∈ p.counts, q.1 ≠ a → q.2 < c)
    (hinv : ∀ ag ∈ p.agents, ag.addr = a →
      ag.is_valid_commander_candidate = false) :
    read_evtc_info_from_bytes order data = .ok (some (assembleInfo order p)) ∧
      (assembleInfo order p).commander = none := by
  constructor
  · unfold read_evtc_info_from_bytes
    simp only [bind, Except.bind, hp]
    rfl
  · show ((maxByKey (order p.counts)).bind fun m =>
      (p.agents.find? fun ag =>
        ag.addr == m.1 && ag.is_valid_commander_candidate).map
        EVTCAgent.display_name) = none
    rw [commander_pick_strict p.agents p.counts order a c hperm hmem hstrict]
    have hfind : (p.agents.find? fun ag =>
        ag.addr == a && ag.is_valid_commander_candidate) = none := by
      rw [List.find?_eq_none]
      intro ag hag hcon
      simp only [Bool.and_eq_true, beq_iff_eq] at hcon
      have := hinv ag hag hcon.1
      rw [this] at hcon
      cases hcon.2
    rw [hfind]
    rfl

set_option maxRecDepth 100000 in
set_option maxHeartbeats 2000000 in
/-- Witness for C3: in `wBuf` address 7 has the strictly highest marker
count but belongs to the profession-named agent "Guardian", while the
lower-count address 5 belongs to a valid player; the commander is
`None`. -/
theorem claim_C3_witness :
    read_evtc_info_from_bytes id wBuf = .ok (some (assembleInfo id wParseOut)) ∧
      (assembleInfo id wParseOut).commander = none :=
  claim_C3 id wBuf wParseOut 7 2 (by decide) (List.Perm.refl _) (by decide)
    (by decide) (by decide)

/-- C10: on a buffer whose histogram has one address with a strictly
greater count than every other, two runs — that is, any two hash-map
iteration orders — report the same commander. -/
theorem claim_C10 (data : List Nat)
    (order1 order2 : List (Nat × Nat) → List (Nat × Nat)) (p : ParseOut)
    (a c : Nat) (hp : parsePhase data = .ok (some p))
    (h1 : (order1 p.counts).Perm p.counts)
    (h2 : (order2 p.counts).Perm p.counts)
    (hmem : (a, c) ∈ p.counts)
    (hstrict : ∀ q ∈ p.counts, q.1 ≠ a → q.2 < c) :
    (read_evtc_info_from_bytes order1 data).map
      (Option.map EvtcInfo.commander) =
    (read_evtc_info_from_bytes order2 data).map
      (Option.map EvtcInfo.commander) := by
  have hread : ∀ order : List (Nat × Nat) → List (Nat × Nat),
      read_evtc_info_from_bytes order data =
        .ok (some (assembleInfo order p)) := by
    intro order
    unfold read_evtc_info_from_bytes
    simp only [bind, Except.bind, hp]
    rfl
  rw [hread order1, hread order2]
  have hcomm : ∀ order : List (Nat × Nat) → List (Nat × Nat),
      (order p.counts).Perm p.counts →
      (assembleInfo order p).commander =
        (p.agents.find? fun ag =>
          ag.addr == a && ag.is_valid_commander_candidate).map
          EVTCAgent.display_name := by
    intro order hperm
    exact commander_pick_strict p.agents p.counts order a c hperm hmem hstrict
  simp only [Except.map, Option.map]
  rw [show (assembleInfo order1 p).commander =
      (assembleInfo order2 p).commander from
    (hcomm order1 h1).trans (hcomm order2 h2).symm]

set_option maxRecDepth 100000 in
set_option maxHeartbeats 2000000 in
/-- Witness for C10 at `wBuf` (strict maximum at address 7) with the
identity and the reversing iteration orders. -/
theorem claim_C10_witness :
    (read_evtc_info_from_bytes id wBuf).map (Option.map EvtcInfo.commander) =
    (read_evtc_info_from_bytes List.reverse wBuf).map
      (Option.map EvtcInfo.commander) :=
  claim_C10 wBuf id List.reverse wParseOut 7 2 (by decide)
    (List.Perm.refl _) (by decide) (by decide) (by decide)

/-! ## Claim C6: the map table -/

/-- C6: the fixed map-id table, with every other nonzero id mapping to
PvE and zero to Unknown, and `is_wvw` true exactly for the six named WvW
variants. -/
theorem claim_C6 :
    MapType.from_map_id 38 = .EternalBattlegrounds ∧
    MapType.from_map_id 95 = .GreenAlpineBorderlands ∧
    MapType.from_map_id 96 = .BlueAlpineBorderlands ∧
    MapType.from_map_id 1099 = .RedDesertBorderlands ∧
    MapType.from_map_id 968 = .EdgeOfTheMists ∧
    MapType.from_map_id 899 = .ObsidianSanctum ∧
    MapType.from_map_id 0 = .Unknown ∧
    (∀ m : Nat, m < 65536 → m ≠ 0 → m ≠ 38 → m ≠ 95 → m ≠ 96 →
      m ≠ 1099 → m ≠ 968 → m ≠ 899 → MapType.from_map_id m = .PvE) ∧
    (∀ t : MapType, t.is_wvw = true ↔
      (t = .EternalBattlegrounds ∨ t = .GreenAlpineBorderlands ∨
       t = .BlueAlpineBorderlands ∨ t = .RedDesertBorderlands ∨
       t = .EdgeOfTheMists ∨ t = .ObsidianSanctum)) := by
  refine ⟨rfl, rfl, rfl, rfl, rfl, rfl, rfl, ?_, ?_⟩
  · intro m _ h0 h38 h95 h96 h1099 h968 h899
    simp [MapType.from_map_id, h38, h95, h96, h1099, h968, h899,
      Nat.pos_of_ne_zero h0]
  · intro t
    cases t <;> simp [MapType.is_wvw]

/-- Witness for C6: map id 1 is PvE and PvE is not WvW. -/
theorem claim_C6_witness :
    MapType.from_map_id 1 = .PvE ∧ MapType.is_wvw .PvE = false := by
  constructor
  · exact claim_C6.2.2.2.2.2.2.2.1 1 (by decide) (by decide) (by decide)
      (by decide) (by decide) (by decide) (by decide) (by decide)
  · decide

/-! ## Claim C7: the is_player predicate -/

theorem takeWhile_append_all (p : Nat → Bool) (u v : List Nat)
    (hu : ∀ x ∈ u, p x = true) :
    (u ++ v).takeWhile p = u ++ v.takeWhile p := by
  induction u with
  | nil => simp
  | cons x t ih =>
    have hx : p x = true := hu x (List.mem_cons_self _ _)
    simp only [List.cons_append, List.takeWhile_cons, hx, if_true]
    rw [ih (fun y hy => hu y (List.mem_cons.mpr (Or.inr hy)))]

theorem takeWhile_append_stop (p : Nat → Bool) (u v : List Nat)
    (hu : ∃ x ∈ u, p x = false) :
    (u ++ v).takeWhile p = u.takeWhile p := by
  induction u with
  | nil =>
    obtain ⟨x, hx, _⟩ := hu
    cases hx
  | cons y t ih =>
    by_cases hy : p y = true
    · simp only [List.cons_append, List.takeWhile_cons, hy, if_true]
      obtain ⟨x, hx, hpx⟩ := hu
      rcases List.mem_cons.mp hx with h1 | h1
      · rw [h1] at hpx; rw [hpx] at hy; cases hy
      · rw [ih ⟨x, h1, hpx⟩]
    · have hy2 : p y = false := by
        cases h : p y
        · rfl
        · exact absurd h hy
      simp only [List.cons_append, List.takeWhile_cons, hy2]
      simp

theorem rfindByte_none_iff (c : Nat) (l : List Nat) :
    rfindByte c l = none ↔ c ∉ l := by
  induction l with
  | nil => simp [rfindByte]
  | cons b t ih =>
    rw [rfindByte]
    cases h : rfindByte c t with
    | some i =>
      simp only []
      constructor
      · intro heq; cases heq
      · intro hmem
        have : c ∈ t := by
          by_contra hc
          rw [ih.mpr hc] at h
          cases h
        exact absurd (List.mem_cons.mpr (Or.inr this)) hmem
    | none =>
      have hct : c ∉ t := ih.mp h
      simp only []
      by_cases hb : b = c
      · rw [if_pos hb]
        simp [hb, List.mem_cons]
      · rw [if_neg hb]
        simp only [List.mem_cons, true_iff]
        intro hmem
        rcases hmem with h1 | h1
        · exact hb h1.symm
        · exact hct h1

theorem rfindByte_some_drop (c : Nat) (l : List Nat) :
    ∀ i, rfindByte c l = some i →
      l.drop (i + 1) = (l.reverse.takeWhile fun b => b != c).reverse := by
  induction l with
  | nil => intro i h; cases h
  | cons b t ih =>
    intro i h
    rw [rfindByte] at h
    cases ht : rfindByte c t with
    | some j =>
      rw [ht] at h
      simp only [Option.some.injEq] at h
      subst h
      have hct : c ∈ t := by
        by_contra hc
        rw [(rfindByte_none_iff c t).mpr hc] at ht
        cases ht
      have hstop : (t.reverse ++ [b]).takeWhile (fun x => x != c) =
          t.reverse.takeWhile (fun x => x != c) := by
        refine takeWhile_append_stop _ _ _ ⟨c, List.mem_reverse.mpr hct, ?_⟩
        simp
      rw [List.reverse_cons, hstop]
      rw [List.drop_succ_cons]
      exact ih j ht
    | none =>
      rw [ht] at h
      have hct : c ∉ t := (rfindByte_none_iff c t).mp ht
      by_cases hb : b = c
      · rw [if_pos hb] at h
        simp only [Option.some.injEq] at h
        subst h
        subst hb
        have hall : ∀ x ∈ t.reverse, (x != b) = true := by
          intro x hx
          have : x ∈ t := List.mem_reverse.mp hx
          have hxb : x ≠ b := fun hxx => hct (hxx ▸ this)
          simpa using hxb
        rw [List.reverse_cons, takeWhile_append_all _ _ _ hall]
        simp
      · rw [if_neg hb] at h
        cases h

/-- C7: `is_player` is true exactly when the account is non-empty,
contains a dot, and the substring after the last dot consists of exactly
four ASCII digits; the boundary examples behave as the spec states. -/
theorem claim_C7 :
    (∀ (addr : Nat) (character account : List Nat),
      EVTCAgent.is_player ⟨addr, character, account⟩ = true ↔
        isPlayerSpec account) ∧
    EVTCAgent.is_player ⟨0, [], strBytes "Name.1234"⟩ = true ∧
    EVTCAgent.is_player ⟨0, [], strBytes "Name.123"⟩ = false ∧
    EVTCAgent.is_player ⟨0, [], strBytes "Name."⟩ = false ∧
    EVTCAgent.is_player ⟨0, [], strBytes "Name1234"⟩ = false ∧
    EVTCAgent.is_player ⟨0, [], []⟩ = false := by
  refine ⟨?_, by decide, by decide, by decide, by decide, by decide⟩
  intro addr character account
  unfold EVTCAgent.is_player isPlayerSpec
  simp only []
  cases haccount : account with
  | nil => simp [afterLastDot]
  | cons b t =>
    rw [← haccount]
    have hne : account ≠ [] := by rw [haccount]; simp
    rw [if_neg (by simpa using hne)]
    cases hr : rfindByte 46 account with
    | none =>
      have : 46 ∉ account := (rfindByte_none_iff 46 account).mp hr
      simp [this, hne]
    | some i =>
      have hdrop := rfindByte_some_drop 46 account i hr
      have hmem : 46 ∈ account := by
        by_contra hc
        rw [(rfindByte_none_iff 46 account).mpr hc] at hr
        cases hr
      simp only [afterLastDot, ← hdrop, Bool.and_eq_true, beq_iff_eq,
        List.all_eq_true, hne, hmem, ne_eq, not_false_iff, true_and]

/-! ## Claim C8: container detection -/

/-- C8: the container sniff routes through the ZIP/DEFLATE path exactly
when the first two bytes are `0x50 0x4B` (80, 75): otherwise the
contents are parsed as raw log bytes (whatever the decompressor would
do, and regardless of any later occurrence of the pair); with the magic
present, the result is the DEFLATE pipeline applied to the payload
located from the local-file-header length fields. -/
theorem claim_C8 :
    (∀ (inflate : List Nat → Option (List Nat))
       (order : List (Nat × Nat) → List (Nat × Nat)) (contents : List Nat),
      4 ≤ contents.length →
      ¬(contents[0]? = some 80 ∧ contents[1]? = some 75) →
      read_evtc_info inflate order contents =
        read_evtc_info_from_bytes order contents) ∧
    (∀ (inflate : List Nat → Option (List Nat))
       (order : List (Nat × Nat) → List (Nat × Nat)) (contents : List Nat),
      contents[0]? = some 80 → contents[1]? = some 75 →
      30 ≤ contents.length →
      read_evtc_info inflate order contents =
        (if 30 + leVal ((contents.drop 26).take 2) +
              leVal ((contents.drop 28).take 2) ≥ contents.length
         then .ok none
         else
          match inflate (contents.drop (30 + leVal ((contents.drop 26).take 2) +
              leVal ((contents.drop 28).take 2))) with
          | some decompressed => read_evtc_info_from_bytes order decompressed
          | none => .ok none)) := by
  constructor
  · intro inflate order contents hlen hmagic
    unfold read_evtc_info
    rw [if_neg (by omega)]
    rw [byteAt_ok_of_lt contents 0 (by omega),
      byteAt_ok_of_lt contents 1 (by omega)]
    simp only [bind, Except.bind]
    have hcond : ¬(contents[0] = 80 ∧ contents[1] = 75) := by
      rintro ⟨ha, hb⟩
      refine hmagic ⟨?_, ?_⟩
      · rw [List.getElem?_eq_getElem (show 0 < contents.length by omega), ha]
      · rw [List.getElem?_eq_getElem (show 1 < contents.length by omega), hb]
    rw [if_neg hcond]
  · intro inflate order contents h0 h1 hlen
    have h0v : contents[0] = 80 := by
      rw [List.getElem?_eq_getElem (show 0 < contents.length by omega)] at h0
      exact Option.some.inj h0
    have h1v : contents[1] = 75 := by
      rw [List.getElem?_eq_getElem (show 1 < contents.length by omega)] at h1
      exact Option.some.inj h1
    unfold read_evtc_info
    rw [if_neg (by omega)]
    rw [byteAt_ok_of_lt contents 0 (by omega),
      byteAt_ok_of_lt contents 1 (by omega)]
    simp only [bind, Except.bind]
    rw [if_pos ⟨h0v, h1v⟩]
    rw [if_neg (show ¬ contents.length < 30 by omega)]
    rw [readLE_eq contents 26 2 (by omega), readLE_eq contents 28 2 (by omega)]
    simp only [bind, Except.bind]
    rfl

set_option maxRecDepth 100000 in
set_option maxHeartbeats 4000000 in
/-- Witness for C8: a buffer with the ZIP pair only at positions 2 and 3
parses raw; a buffer with the magic at positions 0 and 1 routes the
payload through the decompressor. -/
theorem claim_C8_witness :
    read_evtc_info (fun _ => none) id [1, 2, 80, 75] =
      read_evtc_info_from_bytes id [1, 2, 80, 75] ∧
    read_evtc_info (fun _ => some wTrunc) id
        ([80, 75] ++ List.replicate 28 0 ++ [9]) =
      read_evtc_info_from_bytes id wTrunc := by
  constructor
  · exact claim_C8.1 (fun _ => none) id [1, 2, 80, 75] (by decide) (by decide)
  · rw [claim_C8.2 (fun _ => some wTrunc) id
      ([80, 75] ++ List.replicate 28 0 ++ [9]) (by decide) (by decide)
      (by decide)]
    decide

/-! ## Claim C9: header bytes 13–15 never influence the result -/

theorem byteAt_congr (d1 d2 : List Nat)
    (hag : ∀ i, i ≠ 13 → i ≠ 14 → i ≠ 15 → d1[i]? = d2[i]?) (i : Nat)
    (hi : i ≠ 13 ∧ i ≠ 14 ∧ i ≠ 15) : byteAt d1 i = byteAt d2 i := by
  unfold byteAt
  rw [hag i hi.1 hi.2.1 hi.2.2]

theorem readLE_congr (d1 d2 : List Nat)
    (hag : ∀ i, i ≠ 13 → i ≠ 14 → i ≠ 15 → d1[i]? = d2[i]?) (w : Nat) :
    ∀ pos, 16 ≤ pos → readLE d1 pos w = readLE d2 pos w := by
  induction w with
  | zero => intro pos _; rfl
  | succ w ih =>
    intro pos hpos
    rw [readLE, readLE]
    rw [byteAt_congr d1 d2 hag pos (by omega)]
    cases byteAt d2 pos with
    | error e => rw [exc_bind_error, exc_bind_error]
    | ok b =>
      simp only [bind, Except.bind]
      rw [ih (pos + 1) (by omega)]

theorem slice_congr (d1 d2 : List Nat)
    (hag : ∀ i, i ≠ 13 → i ≠ 14 → i ≠ 15 → d1[i]? = d2[i]?) (a k : Nat)
    (ha : 16 ≤ a) : (d1.drop a).take k = (d2.drop a).take k := by
  refine List.ext_getElem? fun j => ?_
  rw [List.getElem?_take, List.getElem?_take]
  by_cases hj : j < k
  · rw [if_pos hj, if_pos hj, List.getElem?_drop, List.getElem?_drop]
    exact hag (a + j) (by omega) (by omega) (by omega)
  · rw [if_neg hj, if_neg hj]

theorem sliceAt_congr (d1 d2 : List Nat) (hlen : d1.length = d2.length)
    (hag : ∀ i, i ≠ 13 → i ≠ 14 → i ≠ 15 → d1[i]? = d2[i]?) (a b : Nat)
    (ha : 16 ≤ a) : sliceAt d1 a b = sliceAt d2 a b := by
  unfold sliceAt
  rw [hlen]
  by_cases h : a ≤ b ∧ b ≤ d2.length
  · rw [if_pos h, if_pos h, slice_congr d1 d2 hag a (b - a) ha]
  · rw [if_neg h, if_neg h]

theorem from_bytes_congr (d1 d2 : List Nat) (hlen : d1.length = d2.length)
    (hag : ∀ i, i ≠ 13 → i ≠ 14 → i ≠ 15 → d1[i]? = d2[i]?) (offset : Nat)
    (hoff : 16 ≤ offset) :
    EVTCAgent.from_bytes d1 offset = EVTCAgent.from_bytes d2 offset := by
  unfold EVTCAgent.from_bytes
  rw [hlen]
  by_cases h : offset + 96 > d2.length
  · rw [if_pos h, if_pos h]
  · rw [if_neg h, if_neg h]
    rw [readLE_congr d1 d2 hag 8 offset hoff]
    cases readLE d2 offset 8 with
    | error e => rw [exc_bind_error, exc_bind_error]
    | ok addr =>
      simp only [bind, Except.bind]
      rw [sliceAt_congr d1 d2 hlen hag (offset + 28) (offset + 92) (by omega)]

theorem agentLoop_congr (d1 d2 : List Nat) (hlen : d1.length = d2.length)
    (hag : ∀ i, i ≠ 13 → i ≠ 14 → i ≠ 15 → d1[i]? = d2[i]?) (n : Nat) :
    ∀ pos, 16 ≤ pos → agentLoop d1 pos n = agentLoop d2 pos n := by
  induction n with
  | zero => intro pos _; rfl
  | succ n ih =>
    intro pos hpos
    rw [agentLoop, agentLoop]
    rw [from_bytes_congr d1 d2 hlen hag pos hpos]
    cases EVTCAgent.from_bytes d2 pos with
    | error e => rw [exc_bind_error, exc_bind_error]
    | ok a? =>
      simp only [bind, Except.bind]
      rw [ih (pos + 96) (by omega)]

theorem parse_agents_congr (d1 d2 : List Nat)
    (hlen : d1.length = d2.length)
    (hag : ∀ i, i ≠ 13 → i ≠ 14 → i ≠ 15 → d1[i]? = d2[i]?) :
    parse_agents d1 = parse_agents d2 := by
  unfold parse_agents
  rw [hlen]
  by_cases h16 : d2.length < 16
  · rw [if_pos h16, if_pos h16]
  rw [if_neg h16, if_neg h16]
  by_cases h20 : 16 + 4 > d2.length
  · rw [if_pos h20, if_pos h20]
  rw [if_neg h20, if_neg h20]
  rw [readLE_congr d1 d2 hag 4 16 (by omega)]
  cases readLE d2 16 4 with
  | error e => rw [exc_bind_error, exc_bind_error]
  | ok n =>
    simp only [bind, Except.bind]
    rw [agentLoop_congr d1 d2 hlen hag n 20 (by omega)]

theorem scanStep_congr (d1 d2 : List Nat)
    (hag : ∀ i, i ≠ 13 → i ≠ 14 → i ≠ 15 → d1[i]? = d2[i]?) (off pos : Nat)
    (hpos : 16 ≤ pos) (acc : ScanAcc) :
    scanStep d1 off pos acc = scanStep d2 off pos acc := by
  unfold scanStep
  rw [byteAt_congr d1 d2 hag (pos + off) (by omega),
    readLE_congr d1 d2 hag 2 (pos + 8) (by omega),
    readLE_congr d1 d2 hag 8 (pos + 8) (by omega),
    byteAt_congr d1 d2 hag (pos + 49) (by omega)]

theorem scanLoop_congr (d1 d2 : List Nat) (hlen : d1.length = d2.length)
    (hag : ∀ i, i ≠ 13 → i ≠ 14 → i ≠ 15 → d1[i]? = d2[i]?) (off : Nat)
    (fuel : Nat) : ∀ pos acc, 16 ≤ pos →
    scanLoop d1 off fuel pos acc = scanLoop d2 off fuel pos acc := by
  induction fuel with
  | zero => intro pos acc _; rfl
  | succ fuel ih =>
    intro pos acc hpos
    rw [scanLoop, scanLoop, hlen]
    by_cases hb : pos + 64 > d2.length
    · rw [if_pos hb, if_pos hb]
    rw [if_neg hb, if_neg hb]
    rw [scanStep_congr d1 d2 hag off pos hpos acc]
    cases scanStep d2 off pos acc with
    | error e => rw [exc_bind_error, exc_bind_error]
    | ok acc3 =>
      simp only [bind, Except.bind]
      exact ih (pos + 64) acc3 (by omega)

/-- The position returned by a successful `parse_agents` is at least
20. -/
theorem parse_agents_pos (data : List Nat) (agents : List EVTCAgent)
    (pos : Nat) (hp : parse_agents data = .ok (some (agents, pos))) :
    20 ≤ pos := by
  unfold parse_agents at hp
  by_cases h16 : data.length < 16
  · rw [if_pos h16] at hp; cases hp
  rw [if_neg h16] at hp
  by_cases h20 : 16 + 4 > data.length
  · rw [if_pos h20] at hp; cases hp
  rw [if_neg h20] at hp
  rw [readLE_eq data 16 4 (by omega)] at hp
  obtain ⟨agents2, hloop, -, -⟩ :=
    agentLoop_spec data (leVal ((data.drop 16).take 4)) 20
  simp only [bind, Except.bind, hloop, Except.ok.injEq, Option.some.injEq,
    Prod.mk.injEq] at hp
  obtain ⟨-, hpos⟩ := hp
  omega

theorem parseTail_congr (d1 d2 : List Nat) (hlen : d1.length = d2.length)
    (hag : ∀ i, i ≠ 13 → i ≠ 14 → i ≠ 15 → d1[i]? = d2[i]?)
    (revision : Nat) (agents : List EVTCAgent) (pos0 : Nat)
    (hpos0 : 16 ≤ pos0) :
    parseTail d1 revision agents pos0 = parseTail d2 revision agents pos0 := by
  unfold parseTail
  rw [hlen]
  by_cases h4 : pos0 + 4 > d2.length
  · rw [if_pos h4, if_pos h4]
  rw [if_neg h4, if_neg h4]
  rw [readLE_congr d1 d2 hag 4 pos0 (by omega)]
  cases readLE d2 pos0 4 with
  | error e => rw [exc_bind_error, exc_bind_error]
  | ok skc =>
    simp only [bind, Except.bind]
    by_cases hsk : pos0 + 4 + skc * 68 > d2.length
    · rw [if_pos hsk, if_pos hsk]
    rw [if_neg hsk, if_neg hsk]
    rw [scanLoop_congr d1 d2 hlen hag (if revision = 1 then 56 else 59)
      (min ((d2.length - (pos0 + 4 + skc * 68)) / 64) 10000)
      (pos0 + 4 + skc * 68) ⟨0, none, []⟩ (by omega)]

theorem parsePhase_congr (d1 d2 : List Nat) (hlen : d1.length = d2.length)
    (hag : ∀ i, i ≠ 13 → i ≠ 14 → i ≠ 15 → d1[i]? = d2[i]?) :
    parsePhase d1 = parsePhase d2 := by
  unfold parsePhase
  rw [hlen]
  by_cases h16 : d2.length < 16
  · rw [if_pos h16, if_pos h16]
  rw [if_neg h16, if_neg h16]
  rw [byteAt_congr d1 d2 hag 12 (by omega)]
  cases byteAt d2 12 with
  | error e => rw [exc_bind_error, exc_bind_error]
  | ok rev =>
    simp only [exc_bind_ok]
    rw [parse_agents_congr d1 d2 hlen hag]
    cases hpa : parse_agents d2 with
    | error e => rw [exc_bind_error, exc_bind_error]
    | ok pr =>
      simp only [exc_bind_ok]
      cases pr with
      | none => rw [agentsStage_none, agentsStage_none]
      | some ap =>
        obtain ⟨agents, pos0⟩ := ap
        rw [agentsStage_some, agentsStage_some]
        have hpos0 : 20 ≤ pos0 := parse_agents_pos d2 agents pos0 hpa
        exact parseTail_congr d1 d2 hlen hag rev agents pos0 (by omega)

set_option maxHeartbeats 4000000 in
/-- C9: two raw buffers of length at least 16 that agree everywhere
except at header bytes 13, 14 and 15 classify identically: the
boss-species-id bytes are never read. -/
theorem claim_C9 (order : List (Nat × Nat) → List (Nat × Nat))
    (d1 d2 : List Nat) (hlen : d1.length = d2.length)
    (_hsz : 16 ≤ d1.length)
    (hag : ∀ i, i ≠ 13 → i ≠ 14 → i ≠ 15 → d1[i]? = d2[i]?) :
    read_evtc_info_from_bytes order d1 =
      read_evtc_info_from_bytes order d2 := by
  unfold read_evtc_info_from_bytes
  rw [parsePhase_congr d1 d2 hlen hag]

set_option maxHeartbeats 4000000 in
set_option maxRecDepth 100000 in
/-- Witness for C9: a 16-byte header with bytes 13–15 zero versus the
same header with bytes 13–15 set to 1, 2, 3. -/
theorem claim_C9_witness :
    read_evtc_info_from_bytes id (List.replicate 16 0) =
      read_evtc_info_from_bytes id (List.replicate 13 0 ++ [1, 2, 3]) := by
  refine claim_C9 id _ _ (by decide) (by decide) ?_
  intro i h13 h14 h15
  by_cases hi : i < 16
  · interval_cases i <;> first | decide | omega
  · rw [List.getElem?_eq_none (by simp; omega),
      List.getElem?_eq_none (by simp; omega)]

/-! ## Characterization of parsing on encoded logs (claims C4 and C5) -/

theorem mod_mul_decomp (n a b : Nat) :
    n % (a * b) = n % a + a * (n / a % b) := by
  rcases Nat.eq_zero_or_pos a with ha | ha
  · subst ha; simp
  have h1 : n % a = n % (a * b) % a := (Nat.mod_mul_right_mod n a b).symm
  have h2 : n / a % b = n % (a * b) / a := (Nat.mod_mul_right_div_self n a b).symm
  rw [h1, h2]
  have h3 : n % (a * b) % a + a * (n % (a * b) / a) = n % (a * b) :=
    Nat.mod_add_div _ _
  omega

theorem leBytes_length (w n : Nat) : (leBytes w n).length = w := by
  induction w generalizing n with
  | zero => rfl
  | succ w ih => simp [leBytes, ih]

theorem leVal_leBytes (w n : Nat) : leVal (leBytes w n) = n % 256 ^ w := by
  induction w generalizing n with
  | zero => simp [leBytes, leVal, Nat.mod_one]
  | succ w ih =>
    rw [leBytes, leVal, ih]
    rw [pow_succ, mul_comm (256 ^ w) 256, mod_mul_decomp]

theorem encodeEvent_length (off : Nat) (e : LEvent) :
    (encodeEvent off e).length = 64 := by
  simp [encodeEvent]

theorem encAll_length (off : Nat) (evs : List LEvent) :
    (encAll off evs).length = 64 * evs.length := by
  induction evs with
  | nil => rfl
  | cons e t ih =>
    simp only [encAll, List.length_append, encodeEvent_length, ih,
      List.length_cons]
    ring

theorem encodeEvent_get (off : Nat) (e : LEvent) (j : Nat) (hj : j < 64) :
    (encodeEvent off e)[j]? = some (
      if 8 ≤ j ∧ j < 16 then (e.val / 256 ^ (j - 8)) % 256
      else if j = 49 then e.flag
      else if j = off then e.tag
      else 0) := by
  unfold encodeEvent
  rw [List.getElem?_map, List.getElem?_range hj]
  rfl

/-- A multi-byte read over in-place little-endian digits of `n` returns
`n` modulo the width. -/
theorem readLE_digits (data : List Nat) (n : Nat) (w : Nat) :
    ∀ pos, (∀ j, j < w → data[pos + j]? = some ((n / 256 ^ j) % 256)) →
    readLE data pos w = .ok (n % 256 ^ w) := by
  induction w generalizing n with
  | zero => intro pos _; simp [readLE, Nat.mod_one]
  | succ w ih =>
    intro pos hdig
    rw [readLE]
    have h0 : data[pos]? = some (n % 256) := by
      have := hdig 0 (by omega)
      simpa using this
    rw [byteAt_eq_of_get h0]
    have hrec : readLE data (pos + 1) w = .ok ((n / 256) % 256 ^ w) := by
      refine ih (n / 256) (pos + 1) fun j hj => ?_
      have hd := hdig (j + 1) (by omega)
      rw [show pos + 1 + j = pos + (j + 1) by omega, hd]
      have harg : n / 256 ^ (j + 1) = n / 256 / 256 ^ j := by
        rw [Nat.div_div_eq_div_mul, pow_succ, mul_comm 256 (256 ^ j)]
      rw [harg]
    rw [hrec]
    simp only [bind, Except.bind]
    rw [pow_succ, mul_comm (256 ^ w) 256, mod_mul_decomp]

/-- Reading at the seam of an append. -/
theorem readLE_pre (pre l rest : List Nat) (w : Nat) (hw : w ≤ l.length) :
    readLE (pre ++ l ++ rest) pre.length w = .ok (leVal (l.take w)) := by
  have hlen : pre.length + w ≤ (pre ++ l ++ rest).length := by
    simp [List.length_append]
    omega
  rw [readLE_eq _ _ _ hlen]
  have hdrop : (pre ++ l ++ rest).drop pre.length = l ++ rest := by
    rw [List.append_assoc]
    exact List.drop_left _ _
  rw [hdrop, take_append_le l rest w hw]

theorem drop_append_le (c rest : List Nat) (k : Nat) (hk : k ≤ c.length) :
    (c ++ rest).drop k = c.drop k ++ rest := by
  induction c generalizing k with
  | nil =>
    have : k = 0 := by simpa using hk
    subst this
    simp
  | cons x t ih =>
    cases k with
    | zero => simp
    | succ j =>
      simp only [List.cons_append, List.drop_succ_cons]
      exact ih j (by simpa using hk)

/-- An in-bounds 96-byte agent record at the seam of an append parses to
`agentOfChunk`. -/
theorem from_bytes_enc (pre c rest : List Nat) (hc : c.length = 96) :
    EVTCAgent.from_bytes (pre ++ c ++ rest) pre.length =
      .ok (some (agentOfChunk c)) := by
  have hlen : (pre ++ c ++ rest).length =
      pre.length + 96 + rest.length := by
    simp [List.length_append, hc]
    omega
  unfold EVTCAgent.from_bytes
  rw [if_neg (by omega)]
  rw [readLE_pre pre c rest 8 (by omega)]
  have hslice : sliceAt (pre ++ c ++ rest) (pre.length + 28)
      (pre.length + 92) = .ok ((c.drop 28).take 64) := by
    rw [sliceAt_ok _ _ _ (by omega) (by omega)]
    have harith : pre.length + 92 - (pre.length + 28) = 64 := by omega
    rw [harith]
    rw [List.append_assoc, drop_append_plus pre (c ++ rest) 28]
    rw [drop_append_le c rest 28 (by omega)]
    rw [take_append_le _ rest 64 (by rw [List.length_drop]; omega)]
  rw [hslice]
  simp only [bind, Except.bind]
  rfl

/-- The agent loop over a block of `n` in-bounds records at the seam of
an append parses to `agentsOf`. -/
theorem agentLoop_enc (n : Nat) :
    ∀ (pre ab rest : List Nat), ab.length = 96 * n →
    agentLoop (pre ++ ab ++ rest) pre.length n =
      .ok (agentsOf n ab, pre.length + 96 * n) := by
  induction n with
  | zero =>
    intro pre ab rest hab
    have : ab = [] := List.eq_nil_of_length_eq_zero (by omega)
    subst this
    rw [agentLoop]
    simp [agentsOf]
  | succ n ih =>
    intro pre ab rest hab
    have htk : (ab.take 96).length = 96 := by rw [List.length_take]; omega
    have hdp : (ab.drop 96).length = 96 * n := by rw [List.length_drop]; omega
    have hdata : pre ++ ab ++ rest =
        pre ++ ab.take 96 ++ (ab.drop 96 ++ rest) := by
      conv_lhs => rw [← List.take_append_drop 96 ab]
      simp only [List.append_assoc]
    rw [hdata, agentLoop]
    rw [from_bytes_enc pre (ab.take 96) (ab.drop 96 ++ rest) htk]
    simp only [bind, Except.bind]
    have hdata2 : pre ++ ab.take 96 ++ (ab.drop 96 ++ rest) =
        (pre ++ ab.take 96) ++ ab.drop 96 ++ rest := by
      simp only [List.append_assoc]
    rw [hdata2]
    have hrec := ih (pre ++ ab.take 96) (ab.drop 96) rest hdp
    have hpre2 : (pre ++ ab.take 96).length = pre.length + 96 := by
      simp [htk]
    rw [hpre2] at hrec
    rw [hrec]
    have harith : pre.length + 96 + 96 * n = pre.length + 96 * (n + 1) := by
      ring
    rw [harith]
    rfl

/-- One scan-loop iteration on an encoded event at the seam of an append
computes `stepEvent`. -/
theorem scanStep_enc (pre rest : List Nat) (off : Nat)
    (hoff : off = 56 ∨ off = 59) (e : LEvent) (acc : ScanAcc) :
    scanStep (pre ++ encodeEvent off e ++ rest) off pre.length acc =
      .ok (stepEvent acc e) := by
  have hget : ∀ j, j < 64 →
      (pre ++ encodeEvent off e ++ rest)[pre.length + j]? =
        (encodeEvent off e)[j]? := by
    intro j hj
    exact getp_append_mid pre _ rest j (by rw [encodeEvent_length]; omega)
  have htag : byteAt (pre ++ encodeEvent off e ++ rest)
      (pre.length + off) = .ok e.tag := by
    apply byteAt_eq_of_get
    rw [hget off (by rcases hoff with h | h <;> omega),
      encodeEvent_get off e off (by rcases hoff with h | h <;> omega)]
    rcases hoff with h | h <;> subst h <;> norm_num
  have hval2 : readLE (pre ++ encodeEvent off e ++ rest)
      (pre.length + 8) 2 = .ok (e.val % 65536) := by
    have h := readLE_digits (pre ++ encodeEvent off e ++ rest) e.val 2
      (pre.length + 8) ?_
    · rw [h]
      norm_num
    · intro j hj
      rw [show pre.length + 8 + j = pre.length + (8 + j) by omega,
        hget (8 + j) (by omega), encodeEvent_get off e (8 + j) (by omega)]
      rw [if_pos (by omega)]
      rw [show 8 + j - 8 = j from by omega]
  have hval8 : readLE (pre ++ encodeEvent off e ++ rest)
      (pre.length + 8) 8 = .ok (e.val % 2 ^ 64) := by
    have h := readLE_digits (pre ++ encodeEvent off e ++ rest) e.val 8
      (pre.length + 8) ?_
    · rw [h]
      norm_num
    · intro j hj
      rw [show pre.length + 8 + j = pre.length + (8 + j) by omega,
        hget (8 + j) (by omega), encodeEvent_get off e (8 + j) (by omega)]
      rw [if_pos (by omega)]
      rw [show 8 + j - 8 = j from by omega]
  have hflag : byteAt (pre ++ encodeEvent off e ++ rest)
      (pre.length + 49) = .ok e.flag := by
    apply byteAt_eq_of_get
    rw [hget 49 (by omega), encodeEvent_get off e 49 (by omega)]
    rcases hoff with h | h <;> subst h <;> norm_num
  unfold scanStep stepEvent
  rw [htag]
  simp only [bind, Except.bind, pure, Except.pure, hval2, hval8, hflag]
  repeat' split
  all_goals first | rfl | simp_all

/-- The bounded scan loop over a block of encoded events computes
`refScanFuel`. -/
theorem scanLoop_enc (off : Nat) (hoff : off = 56 ∨ off = 59)
    (evs : List LEvent) :
    ∀ (pre : List Nat) (fuel : Nat) (acc : ScanAcc),
    scanLoop (pre ++ encAll off evs) off fuel pre.length acc =
      .ok (refScanFuel fuel evs acc) := by
  induction evs with
  | nil =>
    intro pre fuel acc
    cases fuel with
    | zero => rfl
    | succ fuel =>
      rw [scanLoop]
      rw [if_pos (by simp [encAll])]
      rfl
  | cons e t ih =>
    intro pre fuel acc
    cases fuel with
    | zero => rfl
    | succ fuel =>
      have hshape : pre ++ encAll off (e :: t) =
          pre ++ encodeEvent off e ++ encAll off t := by
        rw [encAll]
        simp [List.append_assoc]
      rw [scanLoop, hshape]
      have hlen : (pre ++ encodeEvent off e ++ encAll off t).length =
          pre.length + 64 + (encAll off t).length := by
        simp [List.length_append, encodeEvent_length]
        omega
      rw [if_neg (by omega)]
      rw [scanStep_enc pre (encAll off t) off hoff e acc]
      simp only [bind, Except.bind]
      have hrec := ih (pre ++ encodeEvent off e) fuel (stepEvent acc e)
      have hpre2 : (pre ++ encodeEvent off e).length = pre.length + 64 := by
        simp [encodeEvent_length]
      rw [hpre2] at hrec
      rw [show pre ++ encodeEvent off e ++ encAll off t =
        (pre ++ encodeEvent off e) ++ encAll off t from rfl, hrec]
      rfl

/-- Length of an encoded log. -/
theorem encodeLog_length (p12 : List Nat) (rev b13 b14 b15 n : Nat)
    (ab : List Nat) (m : Nat) (sb : List Nat) (evs : List LEvent)
    (h12 : p12.length = 12) (hab : ab.length = 96 * n)
    (hsb : sb.length = 68 * m) :
    (encodeLog p12 rev b13 b14 b15 n ab m sb evs).length =
      24 + 96 * n + 68 * m + 64 * evs.length := by
  simp [encodeLog, List.length_append, h12, hab, hsb, leBytes_length,
    encAll_length]
  ring

theorem parse_agents_enc (p12 : List Nat) (rev b13 b14 b15 n : Nat)
    (ab : List Nat) (m : Nat) (sb : List Nat) (evs : List LEvent)
    (h12 : p12.length = 12) (hab : ab.length = 96 * n)
    (hsb : sb.length = 68 * m) (hn : n < 4294967296) :
    parse_agents (encodeLog p12 rev b13 b14 b15 n ab m sb evs) =
      .ok (some (agentsOf n ab, 20 + 96 * n)) := by
  have hlen := encodeLog_length p12 rev b13 b14 b15 n ab m sb evs h12 hab hsb
  unfold parse_agents
  rw [if_neg (by omega), if_neg (by omega)]
  have hshape1 : encodeLog p12 rev b13 b14 b15 n ab m sb evs =
      (p12 ++ [rev, b13, b14, b15]) ++ leBytes 4 n ++
        (ab ++ (leBytes 4 m ++ (sb ++ encAll (tagOffOf rev) evs))) := by
    simp only [encodeLog, List.append_assoc]
  have hpre16 : (p12 ++ [rev, b13, b14, b15]).length = 16 := by
    simp [h12]
  have hr : readLE (encodeLog p12 rev b13 b14 b15 n ab m sb evs) 16 4 =
      .ok n := by
    rw [hshape1]
    have h := readLE_pre (p12 ++ [rev, b13, b14, b15]) (leBytes 4 n)
      (ab ++ (leBytes 4 m ++ (sb ++ encAll (tagOffOf rev) evs))) 4
      (by rw [leBytes_length])
    rw [hpre16] at h
    rw [h, List.take_of_length_le (le_of_eq (leBytes_length 4 n)),
      leVal_leBytes]
    have h4 : (256 : Nat) ^ 4 = 4294967296 := by norm_num
    rw [Nat.mod_eq_of_lt (by omega)]
  rw [hr]
  simp only [bind, Except.bind]
  have hloop : agentLoop (encodeLog p12 rev b13 b14 b15 n ab m sb evs)
      20 n = .ok (agentsOf n ab, 20 + 96 * n) := by
    have hshape2 : encodeLog p12 rev b13 b14 b15 n ab m sb evs =
        ((p12 ++ [rev, b13, b14, b15]) ++ leBytes 4 n) ++ ab ++
          (leBytes 4 m ++ (sb ++ encAll (tagOffOf rev) evs)) := by
      simp only [encodeLog, List.append_assoc]
    have hpre20 : ((p12 ++ [rev, b13, b14, b15]) ++ leBytes 4 n).length
        = 20 := by
      simp [h12, leBytes_length]
    rw [hshape2]
    have h := agentLoop_enc n ((p12 ++ [rev, b13, b14, b15]) ++ leBytes 4 n)
      ab (leBytes 4 m ++ (sb ++ encAll (tagOffOf rev) evs)) hab
    rw [hpre20] at h
    exact h
  rw [hloop]

theorem parseTail_enc (p12 : List Nat) (rev b13 b14 b15 n : Nat)
    (ab : List Nat) (m : Nat) (sb : List Nat) (evs : List LEvent)
    (agents0 : List EVTCAgent)
    (h12 : p12.length = 12) (hab : ab.length = 96 * n)
    (hsb : sb.length = 68 * m) (hm : m < 4294967296) :
    parseTail (encodeLog p12 rev b13 b14 b15 n ab m sb evs) rev agents0
        (20 + 96 * n) =
      .ok (some ⟨agents0,
        (refScanFuel (min evs.length 10000) evs ⟨0, none, []⟩).map_id,
        (refScanFuel (min evs.length 10000) evs ⟨0, none, []⟩).recorder,
        (refScanFuel (min evs.length 10000) evs ⟨0, none, []⟩).counts⟩) := by
  have hlen := encodeLog_length p12 rev b13 b14 b15 n ab m sb evs h12 hab hsb
  unfold parseTail
  rw [if_neg (by omega)]
  have hshape3 : encodeLog p12 rev b13 b14 b15 n ab m sb evs =
      (((p12 ++ [rev, b13, b14, b15]) ++ leBytes 4 n) ++ ab) ++
        leBytes 4 m ++ (sb ++ encAll (tagOffOf rev) evs) := by
    simp only [encodeLog, List.append_assoc]
  have hpreAg : ((((p12 ++ [rev, b13, b14, b15]) ++ leBytes 4 n) ++ ab)).length
      = 20 + 96 * n := by
    simp [h12, leBytes_length, hab]
    omega
  have hm4 : readLE (encodeLog p12 rev b13 b14 b15 n ab m sb evs)
      (20 + 96 * n) 4 = .ok m := by
    rw [hshape3]
    have h := readLE_pre (((p12 ++ [rev, b13, b14, b15]) ++ leBytes 4 n) ++ ab)
      (leBytes 4 m) (sb ++ encAll (tagOffOf rev) evs) 4
      (by rw [leBytes_length])
    rw [hpreAg] at h
    rw [h, List.take_of_length_le (le_of_eq (leBytes_length 4 m)),
      leVal_leBytes]
    have h4 : (256 : Nat) ^ 4 = 4294967296 := by norm_num
    rw [Nat.mod_eq_of_lt (by omega)]
  rw [hm4]
  simp only [bind, Except.bind]
  rw [if_neg (by omega)]
  have hfuel : min (((encodeLog p12 rev b13 b14 b15 n ab m sb evs).length -
      (20 + 96 * n + 4 + m * 68)) / 64) 10000 = min evs.length 10000 := by
    have hsub : (encodeLog p12 rev b13 b14 b15 n ab m sb evs).length -
        (20 + 96 * n + 4 + m * 68) = 64 * evs.length := by omega
    rw [hsub, Nat.mul_div_cancel_left evs.length (by norm_num)]
  rw [hfuel]
  have hscan : scanLoop (encodeLog p12 rev b13 b14 b15 n ab m sb evs)
      (if rev = 1 then 56 else 59) (min evs.length 10000)
      (20 + 96 * n + 4 + m * 68) ⟨0, none, []⟩ =
      .ok (refScanFuel (min evs.length 10000) evs ⟨0, none, []⟩) := by
    have hshape5 : encodeLog p12 rev b13 b14 b15 n ab m sb evs =
        (((((p12 ++ [rev, b13, b14, b15]) ++ leBytes 4 n) ++ ab) ++
          leBytes 4 m) ++ sb) ++ encAll (tagOffOf rev) evs := by
      simp only [encodeLog, List.append_assoc]
    have hpreEv : ((((((p12 ++ [rev, b13, b14, b15]) ++ leBytes 4 n) ++ ab) ++
        leBytes 4 m) ++ sb)).length = 20 + 96 * n + 4 + m * 68 := by
      simp [h12, leBytes_length, hab, hsb]
      ring
    have hoff : tagOffOf rev = 56 ∨ tagOffOf rev = 59 := by
      unfold tagOffOf
      by_cases h : rev = 1
      · rw [if_pos h]; exact Or.inl rfl
      · rw [if_neg h]; exact Or.inr rfl
    have h := scanLoop_enc (tagOffOf rev) hoff evs
      ((((((p12 ++ [rev, b13, b14, b15]) ++ leBytes 4 n) ++ ab) ++
        leBytes 4 m) ++ sb)) (min evs.length 10000) ⟨0, none, []⟩
    rw [hpreEv] at h
    rw [hshape5]
    show scanLoop _ (tagOffOf rev) _ _ _ = _
    exact h
  rw [hscan]

theorem parsePhase_enc (p12 : List Nat) (rev b13 b14 b15 n : Nat)
    (ab : List Nat) (m : Nat) (sb : List Nat) (evs : List LEvent)
    (h12 : p12.length = 12) (hab : ab.length = 96 * n)
    (hsb : sb.length = 68 * m) (hn : n < 4294967296)
    (hm : m < 4294967296) :
    parsePhase (encodeLog p12 rev b13 b14 b15 n ab m sb evs) =
      .ok (some ⟨agentsOf n ab,
        (refScanFuel (min evs.length 10000) evs ⟨0, none, []⟩).map_id,
        (refScanFuel (min evs.length 10000) evs ⟨0, none, []⟩).recorder,
        (refScanFuel (min evs.length 10000) evs ⟨0, none, []⟩).counts⟩) := by
  have hlen := encodeLog_length p12 rev b13 b14 b15 n ab m sb evs h12 hab hsb
  unfold parsePhase
  rw [if_neg (by omega)]
  have hb12 : byteAt (encodeLog p12 rev b13 b14 b15 n ab m sb evs) 12 =
      .ok rev := by
    apply byteAt_eq_of_get
    have hshape0 : encodeLog p12 rev b13 b14 b15 n ab m sb evs =
        p12 ++ ([rev, b13, b14, b15] ++ (leBytes 4 n ++ (ab ++
          (leBytes 4 m ++ (sb ++ encAll (tagOffOf rev) evs))))) := by
      simp only [encodeLog, List.append_assoc]
    rw [hshape0, show (12 : Nat) = p12.length + 0 from by omega,
      getp_append_right]
    rfl
  rw [hb12]
  simp only [bind, Except.bind]
  rw [parse_agents_enc p12 rev b13 b14 b15 n ab m sb evs h12 hab hsb hn]
  exact parseTail_enc p12 rev b13 b14 b15 n ab m sb evs (agentsOf n ab)
    h12 hab hsb hm

/-- Main characterization: parsing an encoded log yields the assembly of
the decoded agents and the reference scan of the logical events,
independently of the revision byte. -/
theorem read_evtc_enc (order : List (Nat × Nat) → List (Nat × Nat))
    (p12 : List Nat) (rev b13 b14 b15 n : Nat)
    (ab : List Nat) (m : Nat) (sb : List Nat) (evs : List LEvent)
    (h12 : p12.length = 12) (hab : ab.length = 96 * n)
    (hsb : sb.length = 68 * m) (hn : n < 4294967296)
    (hm : m < 4294967296) :
    read_evtc_info_from_bytes order
        (encodeLog p12 rev b13 b14 b15 n ab m sb evs) =
      .ok (some (assembleInfo order ⟨agentsOf n ab,
        (refScanFuel (min evs.length 10000) evs ⟨0, none, []⟩).map_id,
        (refScanFuel (min evs.length 10000) evs ⟨0, none, []⟩).recorder,
        (refScanFuel (min evs.length 10000) evs ⟨0, none, []⟩).counts⟩)) := by
  unfold read_evtc_info_from_bytes
  rw [parsePhase_enc p12 rev b13 b14 b15 n ab m sb evs h12 hab hsb hn hm]
  rfl

/-! ## Claim C5: revision-offset equivalence -/

/-- C5: the same logical event stream encoded with revision byte 0 (tag
at in-record offset 59) and with revision byte 1 (tag at offset 56)
parses to the identical classification result. -/
theorem claim_C5 (order : List (Nat × Nat) → List (Nat × Nat))
    (p12 : List Nat) (b13 b14 b15 n : Nat) (ab : List Nat) (m : Nat)
    (sb : List Nat) (evs : List LEvent)
    (h12 : p12.length = 12) (hab : ab.length = 96 * n)
    (hsb : sb.length = 68 * m) (hn : n < 4294967296)
    (hm : m < 4294967296) :
    read_evtc_info_from_bytes order (encodeLog p12 0 b13 b14 b15 n ab m sb evs)
      = read_evtc_info_from_bytes order
          (encodeLog p12 1 b13 b14 b15 n ab m sb evs) := by
  rw [read_evtc_enc order p12 0 b13 b14 b15 n ab m sb evs h12 hab hsb hn hm,
    read_evtc_enc order p12 1 b13 b14 b15 n ab m sb evs h12 hab hsb hn hm]

set_option maxRecDepth 100000 in
set_option maxHeartbeats 2000000 in
/-- Witness for C5: the two-agent log of `wBuf` encoded with revision 0
and with revision 1. -/
theorem claim_C5_witness :
    read_evtc_info_from_bytes id wBuf = read_evtc_info_from_bytes id wBufRev1 :=
  claim_C5 id (List.replicate 12 0) 0 0 0 2 wAgents 0 [] wEvents
    (by decide) (by decide) (by decide) (by decide) (by decide)

/-! ## Claim C4: map-id latching -/

theorem stepEvent_map_id (acc : ScanAcc) (e : LEvent) :
    (stepEvent acc e).map_id =
      if e.tag = 25 ∧ acc.map_id = 0 then e.val % 65536 else acc.map_id := by
  unfold stepEvent
  by_cases h25 : e.tag = 25 ∧ acc.map_id = 0
  · rw [if_pos h25, if_pos h25]
    dsimp only
    repeat' split
    all_goals rfl
  · rw [if_neg h25, if_neg h25]
    dsimp only
    repeat' split
    all_goals rfl

theorem refScan_map_id (evs : List LEvent) :
    ∀ (fuel : Nat) (acc : ScanAcc),
    (refScanFuel fuel evs acc).map_id =
      if acc.map_id = 0 then firstNZMapId (evs.take fuel)
      else acc.map_id := by
  induction evs with
  | nil =>
    intro fuel acc
    cases fuel with
    | zero =>
      by_cases h : acc.map_id = 0 <;>
        simp [refScanFuel, firstNZMapId, h]
    | succ fuel =>
      by_cases h : acc.map_id = 0 <;>
        simp [refScanFuel, firstNZMapId, h]
  | cons e t ih =>
    intro fuel acc
    cases fuel with
    | zero =>
      by_cases h : acc.map_id = 0 <;>
        simp [refScanFuel, firstNZMapId, h]
    | succ fuel =>
      rw [show refScanFuel (fuel + 1) (e :: t) acc =
        refScanFuel fuel t (stepEvent acc e) from rfl]
      rw [ih fuel (stepEvent acc e), stepEvent_map_id]
      rw [List.take_succ_cons]
      by_cases hacc : acc.map_id = 0
      · by_cases htag : e.tag = 25
        · by_cases hval : e.val % 65536 = 0
          · simp [hacc, htag, hval, firstNZMapId, List.filterMap_cons]
          · simp [hacc, htag, hval, firstNZMapId, List.filterMap_cons]
        · simp [hacc, htag, firstNZMapId, List.filterMap_cons]
      · simp [hacc]

/-- C4 as amended: the reported `map_id` is the first **nonzero** 2-byte
value among map-id-tagged events in the scanned window (map-id
announcements carrying value 0 do not latch, so a later nonzero
announcement is still recorded). -/
theorem claim_C4_amended (order : List (Nat × Nat) → List (Nat × Nat))
    (p12 : List Nat) (rev b13 b14 b15 n : Nat) (ab : List Nat) (m : Nat)
    (sb : List Nat) (evs : List LEvent)
    (h12 : p12.length = 12) (hab : ab.length = 96 * n)
    (hsb : sb.length = 68 * m) (hn : n < 4294967296)
    (hm : m < 4294967296) :
    (read_evtc_info_from_bytes order
        (encodeLog p12 rev b13 b14 b15 n ab m sb evs)).map
      (Option.map EvtcInfo.map_id) =
      .ok (some (firstNZMapId (evs.take (min evs.length 10000)))) := by
  rw [read_evtc_enc order p12 rev b13 b14 b15 n ab m sb evs h12 hab hsb hn hm]
  show Except.ok (some ((refScanFuel (min evs.length 10000) evs
    ⟨0, none, []⟩).map_id)) = _
  rw [refScan_map_id evs (min evs.length 10000) ⟨0, none, []⟩]
  rfl

set_option maxRecDepth 100000 in
/-- Counterexample for C4 as stated: in `wBufMapZero` the first map-id
event carries value 0, yet the reported map id is 38 (the value of the
second announcement), not 0. -/
theorem claim_C4_counterexample :
    specFirstMapId [⟨25, 0, 0⟩, ⟨25, 38, 0⟩] = some 0 ∧
    read_evtc_info_from_bytes id wBufMapZero =
      .ok (some ⟨38, .EternalBattlegrounds, none, none⟩) ∧
    (38 : Nat) ≠ 0 := by
  refine ⟨by decide, by decide, by decide⟩

set_option maxRecDepth 100000 in
/-- Witness for the amended C4 at the concrete two-event buffer. -/
theorem claim_C4_witness :
    (read_evtc_info_from_bytes id wBufMapZero).map
      (Option.map EvtcInfo.map_id) =
      .ok (some (firstNZMapId
        (([⟨25, 0, 0⟩, ⟨25, 38, 0⟩] : List LEvent).take
          (min ([⟨25, 0, 0⟩, ⟨25, 38, 0⟩] : List LEvent).length 10000)))) :=
  claim_C4_amended id (List.replicate 12 0) 0 0 0 0 0 [] 0 []
    [⟨25, 0, 0⟩, ⟨25, 38, 0⟩] (by decide) (by decide) (by decide)
    (by decide) (by decide)
